import Mathlib

/-!
Verification of the front-matter metadata extraction layer (package
`metadata`).  The repository ships the package's test file only; the
production implementation (the `Metadata` record, the JSON/TOML/YAML/None
parsers and the `GetParser` dispatcher) is absent, so every operational
definition below is modelled from the specification and is marked as such
in its doc comment.  Documents are embedded as lists of characters.
-/

abbrev Doc := List Char

/-- Whitespace test mirroring the whitespace class used by trimming. -/
def isWS (c : Char) : Bool := c == ' ' || c == '\t' || c == '\n' || c == '\r'

/-- Drop leading whitespace of a document. -/
def trimLeft (d : Doc) : Doc := d.dropWhile isWS

/-- Drop trailing whitespace of a document. -/
def trimRight (d : Doc) : Doc := (d.reverse.dropWhile isWS).reverse

/-- Trim surrounding whitespace, as `strings.TrimSpace` does in the tests. -/
def trimSpace (d : Doc) : Doc := trimRight (trimLeft d)

/-- Auxiliary line splitter: first line paired with the remaining lines. -/
def splitLinesAux : Doc → Doc × List Doc
  | [] => ([], [])
  | c :: cs =>
    let p := splitLinesAux cs
    if c = '\n' then ([], p.1 :: p.2) else (c :: p.1, p.2)

/-- Split a document into its lines at newline characters. -/
def splitLines (d : Doc) : List Doc := (splitLinesAux d).1 :: (splitLinesAux d).2

/-- Rejoin lines with newline separators; inverse of `splitLines`. -/
def unlines : List Doc → Doc
  | [] => []
  | [l] => l
  | l :: ls => l ++ '\n' :: unlines ls

/-- Concatenate lines, terminating each with a newline, before a tail. -/
def catLines : List Doc → Doc → Doc
  | [], t => t
  | l :: ls, t => l ++ '\n' :: catLines ls t

/-- Modelled from the spec: the dynamically typed variable values carried by
the metadata mapping (string, boolean, integer, float).  A float is kept as
its exact decimal reading: mantissa and number of fractional digits. -/
inductive Value where
  | str (s : Doc)
  | bool (b : Bool)
  | int (n : Int)
  | float (m : Int) (e : Nat)
deriving DecidableEq

/-- Modelled from the spec: the `Metadata` record with the denormalized
`title` and `template` fields and the `variables` mapping. -/
structure Metadata where
  title : Doc := []
  template : Doc := []
  vars : List (Doc × Value) := []
deriving DecidableEq

/-- Modelled from the spec: the three internally distinguishable failure
kinds of a parser initialization. -/
inductive ParseError where
  | absentMetadata
  | unterminatedBlock
  | malformedBlock
deriving DecidableEq

/-- Modelled from the spec: the outcome of one `Init` call, either the
populated metadata with the body bytes, or a failure kind. -/
inductive PResult where
  | ok (md : Metadata) (body : Doc)
  | err (e : ParseError)
deriving DecidableEq

/-- String value found under a key, or empty when absent or not a string. -/
def lookupStr (pairs : List (Doc × Value)) (k : Doc) : Doc :=
  match List.lookup k pairs with
  | some (Value.str s) => s
  | _ => []

/-- Modelled from the spec: the metadata construction rule.  Every parsed
key is copied into `variables`; `title` and `template` are set from the
string values under those keys when present. -/
def buildMetadata (pairs : List (Doc × Value)) : Metadata :=
  ⟨lookupStr pairs "title".toList, lookupStr pairs "template".toList, pairs⟩

/-- The metadata record of the None parser and of a failed initialization. -/
def emptyMetadata : Metadata := ⟨[], [], []⟩

/-- Natural number denoted by a list of decimal digits. -/
def digitsToNat (ds : Doc) : Nat := ds.foldl (fun a c => a * 10 + (c.toNat - 48)) 0

/-- Apply an optional leading minus sign to a parsed magnitude. -/
def intSign (neg : Bool) (n : Nat) : Int := if neg then -(n : Int) else (n : Int)

/-- Modelled from the spec: number scanning shared by the leaf parsers,
reading an optional sign, an integer part and an optional fractional part,
and returning the unconsumed remainder. -/
def jsonNumAux (neg : Bool) (t : Doc) : Option (Value × Doc) :=
  let ds := t.takeWhile Char.isDigit
  let r1 := t.dropWhile Char.isDigit
  if ds.isEmpty then none
  else
    match r1 with
    | '.' :: r2 =>
      let fs := r2.takeWhile Char.isDigit
      let r3 := r2.dropWhile Char.isDigit
      if fs.isEmpty then none
      else some (.float (intSign neg (digitsToNat ds * 10 ^ fs.length + digitsToNat fs)) fs.length, r3)
    | _ => some (.int (intSign neg (digitsToNat ds)), r1)

/-- Modelled from the spec: a decimal number literal with remainder. -/
def jsonNumber (t : Doc) : Option (Value × Doc) :=
  match t with
  | '-' :: r => jsonNumAux true r
  | _ => jsonNumAux false t

/-- A number literal that must consume its whole input, as the TOML and
YAML leaf scalars require. -/
def parseScalarNumber (t : Doc) : Option Value :=
  match jsonNumber t with
  | some (v, []) => some v
  | _ => none

/-- Characters allowed in a bare TOML key. -/
def isBareKeyChar (c : Char) : Bool := c.isAlphanum || c == '_' || c == '-'

/-- Modelled from the spec: one TOML scalar value of the conforming leaf
library, restricted to the value types named by the spec (string, boolean,
integer, float). -/
def parseTOMLValue (t : Doc) : Option Value :=
  match t with
  | '\x22' :: rest =>
    let s := rest.takeWhile (fun c => c ≠ '\x22')
    let r := rest.dropWhile (fun c => c ≠ '\x22')
    if r = ['\x22'] then some (.str s) else none
  | _ =>
    if t = "true".toList then some (.bool true)
    else if t = "false".toList then some (.bool false)
    else parseScalarNumber t

/-- Modelled from the spec: one line of a TOML block, either blank (no
binding) or a `key = value` binding. -/
def parseTOMLLine (l : Doc) : Option (Option (Doc × Value)) :=
  let t := trimSpace l
  if t.isEmpty then some none
  else
    let key := t.takeWhile isBareKeyChar
    let rest := t.dropWhile isBareKeyChar
    if key.isEmpty then none
    else
      match trimLeft rest with
      | '=' :: r2 =>
        match parseTOMLValue (trimLeft r2) with
        | some v => some (some (key, v))
        | none => none
      | _ => none

/-- Modelled from the spec: the conforming TOML leaf library applied to the
collected block lines. -/
def tomlLeaf : List Doc → Option (List (Doc × Value))
  | [] => some []
  | l :: ls =>
    match parseTOMLLine l, tomlLeaf ls with
    | some r, some rest =>
      some (match r with
            | some kv => kv :: rest
            | none => rest)
    | _, _ => none

/-- Split a line at its first colon. -/
def splitFirstColon : Doc → Option (Doc × Doc)
  | [] => none
  | c :: cs =>
    if c = ':' then some ([], cs)
    else (splitFirstColon cs).map (fun p => (c :: p.1, p.2))

/-- Modelled from the spec: YAML scalar typing of an unquoted value. -/
def yamlScalar (t : Doc) : Value :=
  if t = "true".toList then .bool true
  else if t = "false".toList then .bool false
  else
    match parseScalarNumber t with
    | some v => v
    | none => .str t

/-- Modelled from the spec: one line of a YAML block, either blank or a
`key : value` binding. -/
def parseYAMLLine (l : Doc) : Option (Option (Doc × Value)) :=
  let t := trimSpace l
  if t.isEmpty then some none
  else
    match splitFirstColon t with
    | none => none
    | some p =>
      let key := trimSpace p.1
      if key.isEmpty then none
      else some (some (key, yamlScalar (trimSpace p.2)))

/-- Modelled from the spec: the conforming YAML leaf library applied to the
collected block lines. -/
def yamlLeaf : List Doc → Option (List (Doc × Value))
  | [] => some []
  | l :: ls =>
    match parseYAMLLine l, yamlLeaf ls with
    | some r, some rest =>
      some (match r with
            | some kv => kv :: rest
            | none => rest)
    | _, _ => none

/-- Find the first line equal to the fence; lines before it are the block,
lines after it are the body lines. -/
def splitAtFence (fence : Doc) : List Doc → Option (List Doc × List Doc)
  | [] => none
  | l :: ls =>
    if l = fence then some ([], ls)
    else (splitAtFence fence ls).map (fun p => (l :: p.1, p.2))

/-- Modelled from the spec: the fence-delimited state machine shared by the
TOML and YAML parsers.  The first line must equal the fence (else
AbsentMetadata), a closing fence line must follow (else UnterminatedBlock),
the enclosed lines must satisfy the leaf library (else MalformedBlock), and
everything after the closing fence line becomes the body. -/
def fenceParse (fence : Doc) (leaf : List Doc → Option (List (Doc × Value))) (d : Doc) : PResult :=
  let first := (splitLinesAux d).1
  let rest := (splitLinesAux d).2
  if first = fence then
    match splitAtFence fence rest with
    | none => .err .unterminatedBlock
    | some p =>
      match leaf p.1 with
      | none => .err .malformedBlock
      | some pairs => .ok (buildMetadata pairs) (unlines p.2)
  else .err .absentMetadata

/-- The TOML fence marker line. -/
def tomlFence : Doc := "+++".toList

/-- The YAML fence marker line. -/
def yamlFence : Doc := "---".toList

/-- Modelled from the spec: the TOML parser initialization. -/
def tomlParse (d : Doc) : PResult := fenceParse tomlFence tomlLeaf d

/-- Modelled from the spec: the YAML parser initialization. -/
def yamlParse (d : Doc) : PResult := fenceParse yamlFence yamlLeaf d

/-- Modelled from the spec: the brace-balance scan of the JSON parser.  It
walks the characters after the opening brace, counting nesting depth while
excluding quoted string contents (with backslash escapes) from the count,
and returns the consumed span together with the remainder once the depth
returns to zero. -/
def scanJSON : Doc → Nat → Bool → Option (Doc × Doc)
  | [], _, _ => none
  | c :: cs, depth, inStr =>
    if inStr then
      if c = '\x5c' then
        match cs with
        | [] => none
        | e :: es => (scanJSON es depth true).map (fun p => (c :: e :: p.1, p.2))
      else if c = '\x22' then (scanJSON cs depth false).map (fun p => (c :: p.1, p.2))
      else (scanJSON cs depth true).map (fun p => (c :: p.1, p.2))
    else
      if c = '\x22' then (scanJSON cs depth true).map (fun p => (c :: p.1, p.2))
      else if c = '\x7b' then (scanJSON cs (depth + 1) false).map (fun p => (c :: p.1, p.2))
      else if c = '\x7d' then
        if depth = 1 then some ([c], cs)
        else (scanJSON cs (depth - 1) false).map (fun p => (c :: p.1, p.2))
      else (scanJSON cs depth false).map (fun p => (c :: p.1, p.2))

/-- Unescape one backslash-escaped character of a JSON string. -/
def escChar (e : Char) : Char :=
  if e = 'n' then '\n' else if e = 't' then '\t' else if e = 'r' then '\r' else e

/-- Modelled from the spec: JSON string contents after the opening quote,
up to the closing quote, with remainder. -/
def jsonString : Doc → Option (Doc × Doc)
  | [] => none
  | c :: rest =>
    if c = '\x5c' then
      match rest with
      | [] => none
      | e :: es => (jsonString es).map (fun p => (escChar e :: p.1, p.2))
    else if c = '\x22' then some ([], rest)
    else (jsonString rest).map (fun p => (c :: p.1, p.2))

/-- Modelled from the spec: one JSON value of the conforming leaf library,
restricted to the value types named by the spec. -/
def jsonValue (t : Doc) : Option (Value × Doc) :=
  match t with
  | '\x22' :: rest => (jsonString rest).map (fun p => (.str p.1, p.2))
  | _ =>
    if t.take 4 = "true".toList then some (.bool true, t.drop 4)
    else if t.take 5 = "false".toList then some (.bool false, t.drop 5)
    else jsonNumber t

/-- Modelled from the spec: the members of a JSON object, fuelled by the
input length.  Members are `"key" : value` separated by commas and closed
by the final brace. -/
def jsonMembersF : Nat → Doc → Option (List (Doc × Value))
  | 0, _ => none
  | fuel + 1, t =>
    match t with
    | '\x22' :: r0 =>
      match jsonString r0 with
      | none => none
      | some kp =>
        match trimLeft kp.2 with
        | ':' :: r2 =>
          match jsonValue (trimLeft r2) with
          | none => none
          | some vp =>
            match trimLeft vp.2 with
            | ',' :: r4 =>
              match jsonMembersF fuel (trimLeft r4) with
              | none => none
              | some rest => some ((kp.1, vp.1) :: rest)
            | '\x7d' :: r4 => if trimLeft r4 = [] then some [(kp.1, vp.1)] else none
            | _ => none
        | _ => none
    | _ => none

/-- Modelled from the spec: the conforming JSON leaf library applied to the
matched brace span. -/
def jsonLeaf (span : Doc) : Option (List (Doc × Value)) :=
  match trimLeft span with
  | '\x7b' :: r =>
    match trimLeft r with
    | '\x7d' :: r2 => if trimLeft r2 = [] then some [] else none
    | t => jsonMembersF (t.length + 1) t
  | _ => none

/-- Drop a single leading newline of the remainder after the closing
brace, as the spec prescribes for the JSON body. -/
def dropOneNewline : Doc → Doc
  | '\n' :: r => r
  | d => d

/-- Modelled from the spec: the JSON parser initialization.  The first
significant byte must be an opening brace (else AbsentMetadata), the brace
balance must return to zero (else UnterminatedBlock), the span must satisfy
the leaf library (else MalformedBlock), and the remainder after the closing
brace, trimmed of a single leading newline, becomes the body. -/
def jsonParse (d : Doc) : PResult :=
  match trimLeft d with
  | '\x7b' :: rest =>
    match scanJSON rest 1 false with
    | none => .err .unterminatedBlock
    | some p =>
      match jsonLeaf ('\x7b' :: p.1) with
      | none => .err .malformedBlock
      | some pairs => .ok (buildMetadata pairs) (dropOneNewline p.2)
  | _ => .err .absentMetadata

/-- Modelled from the spec: the None parser, which always succeeds with
empty metadata and the whole input as body. -/
def noneParse (d : Doc) : PResult := .ok emptyMetadata d

/-- The closed set of format variants behind the shared parser interface. -/
inductive FormatKind where
  | json
  | yaml
  | toml
  | fnone
deriving DecidableEq

/-- The `Type()` label of each variant. -/
def formatName : FormatKind → String
  | .json => "JSON"
  | .yaml => "YAML"
  | .toml => "TOML"
  | .fnone => "None"

/-- Run the initialization of the given format variant on a document. -/
def runFormat : FormatKind → Doc → PResult
  | .toml, d => tomlParse d
  | .yaml, d => yamlParse d
  | .json, d => jsonParse d
  | .fnone, d => noneParse d

/-- The boolean surfaced by `Init` at the parser boundary. -/
def initB (k : FormatKind) (d : Doc) : Bool :=
  match runFormat k d with
  | .ok _ _ => true
  | .err _ => false

/-- First non-empty line of a document, or the empty line when all lines
are empty. -/
def firstNonEmptyLine (d : Doc) : Doc :=
  ((splitLines d).dropWhile (fun l => l.isEmpty)).headD []

/-- Modelled from the spec: the dispatcher's format sniffing.  Fence
markers are checked first in fixed priority order; the structural brace
detection for JSON is scoped to the very first byte position only; anything
else resolves to the None variant. -/
def sniff (d : Doc) : FormatKind :=
  if firstNonEmptyLine d = tomlFence then .toml
  else if firstNonEmptyLine d = yamlFence then .yaml
  else if d.headD ' ' = '\x7b' then .json
  else .fnone

/-- An initialized parser as observed through the shared interface:
`Type()`, the `Init` outcome, `Metadata()` and `Markdown()`. -/
structure ParserResult where
  ptype : String
  initOK : Bool
  metadata : Metadata
  markdown : Doc
deriving DecidableEq

/-- Bind a format variant to a document and run its initialization. -/
def mkResult (k : FormatKind) (d : Doc) : ParserResult :=
  match runFormat k d with
  | .ok md body => ⟨formatName k, true, md, body⟩
  | .err _ => ⟨formatName k, false, emptyMetadata, []⟩

/-- Modelled from the spec: `GetParser` sniffs the document, selects the
variant and hands back the parser already initialized against the bytes,
as the tests read `Markdown()` immediately after selection. -/
def GetParser (d : Doc) : ParserResult := mkResult (sniff d) d

/-- Modelled from the spec: the mutable state of one parser instance, as
left behind by its latest `Init` call. -/
structure ParserState where
  md : Metadata
  body : Doc
  done : Bool
deriving DecidableEq

/-- Modelled from the spec: one `Init` call on an existing parser
instance.  All result fields are repopulated from the new document alone;
a failed initialization leaves the unpopulated state. -/
def initStep (k : FormatKind) (_st : ParserState) (d : Doc) : ParserState :=
  match runFormat k d with
  | .ok md body => ⟨md, body, true⟩
  | .err _ => ⟨emptyMetadata, [], false⟩

/-- Literal syntax of a JSON member value, used to quantify over all
well-formed rendered JSON documents. -/
inductive JLit where
  | str (s : Doc)
  | bool (b : Bool)
  | num (neg : Bool) (ds : Doc) (fs : Doc)
deriving DecidableEq

/-- The typed value that a conforming JSON reader assigns to a literal. -/
def litValue : JLit → Value
  | .str s => .str s
  | .bool b => .bool b
  | .num neg ds fs =>
    if fs.isEmpty then .int (intSign neg (digitsToNat ds))
    else .float (intSign neg (digitsToNat ds * 10 ^ fs.length + digitsToNat fs)) fs.length

/-- Render a literal back to JSON text. -/
def renderLit : JLit → Doc
  | .str s => '\x22' :: s ++ ['\x22']
  | .bool true => "true".toList
  | .bool false => "false".toList
  | .num neg ds fs =>
    (if neg then ['-'] else []) ++ ds ++ (if fs.isEmpty then [] else '.' :: fs)

/-- Render one object member as a quoted key, a colon and a value. -/
def renderMember (k : Doc) (l : JLit) : Doc :=
  '\x22' :: k ++ '\x22' :: ' ' :: ':' :: ' ' :: renderLit l

/-- Render member lists, separated by commas and line breaks. -/
def renderMembers : List (Doc × JLit) → Doc
  | [] => []
  | [(k, l)] => renderMember k l
  | (k, l) :: rest => renderMember k l ++ ',' :: '\n' :: renderMembers rest

/-- Render a whole JSON front-matter object. -/
def renderObj (ps : List (Doc × JLit)) : Doc :=
  match ps with
  | [] => ['\x7b', '\x7d']
  | _ => '\x7b' :: '\n' :: (renderMembers ps ++ ['\n', '\x7d'])

/-- The key/value pairs a conforming reader extracts from the rendered
members, with each literal replaced by its typed value. -/
def litPairs (ps : List (Doc × JLit)) : List (Doc × Value) :=
  ps.map (fun p => (p.1, litValue p.2))

/-- A key is renderable when it contains no quote, backslash or brace. -/
def keyWF (k : Doc) : Prop :=
  '\x22' ∉ k ∧ '\x5c' ∉ k ∧ '\x7b' ∉ k ∧ '\x7d' ∉ k

/-- A literal is renderable when its string contents avoid the structural
characters and its digit lists are nonempty decimal digits (the fractional
part may be empty, making the literal an integer). -/
def litWF : JLit → Prop
  | .str s => '\x22' ∉ s ∧ '\x5c' ∉ s ∧ '\x7b' ∉ s ∧ '\x7d' ∉ s
  | .bool _ => True
  | .num _ ds fs => ds ≠ [] ∧ (∀ c ∈ ds, c.isDigit = true) ∧ (∀ c ∈ fs, c.isDigit = true)

instance (l : JLit) : Decidable (litWF l) := by
  cases l <;> · unfold litWF; infer_instance

instance (k : Doc) : Decidable (keyWF k) := by
  unfold keyWF; infer_instance

/-- Well-formedness of a rendered member list. -/
def pairsWF (ps : List (Doc × JLit)) : Prop := ∀ p ∈ ps, keyWF p.1 ∧ litWF p.2

instance (ps : List (Doc × JLit)) : Decidable (pairsWF ps) := by
  unfold pairsWF; infer_instance

/-- The in-string flag left by the brace scan after passing over a
character list free of braces and backslashes. -/
def strState : Doc → Bool → Bool
  | [], b => b
  | c :: s, b => strState s (if c = '\x22' then !b else b)


theorem splitLinesAux_no_newline (l : Doc) (h : '\n' ∉ l) : splitLinesAux l = (l, []) := by
  induction l with
  | nil => rfl
  | cons c cs ih =>
    simp only [List.mem_cons, not_or] at h
    have hc : ¬(c = '\n') := fun he => h.1 he.symm
    simp [splitLinesAux, hc, ih h.2]

theorem splitLines_no_newline (l : Doc) (h : '\n' ∉ l) : splitLines l = [l] := by
  simp [splitLines, splitLinesAux_no_newline l h]

theorem splitLinesAux_append (l : Doc) (h : '\n' ∉ l) (rest : Doc) :
    splitLinesAux (l ++ '\n' :: rest) = (l, splitLines rest) := by
  induction l with
  | nil => simp [splitLinesAux, splitLines]
  | cons c cs ih =>
    simp only [List.mem_cons, not_or] at h
    have hc : ¬(c = '\n') := fun he => h.1 he.symm
    simp [splitLinesAux, hc, ih h.2]

theorem splitLines_append (l : Doc) (h : '\n' ∉ l) (rest : Doc) :
    splitLines (l ++ '\n' :: rest) = l :: splitLines rest := by
  simp [splitLines, splitLinesAux_append l h rest]

theorem splitLines_catLines (ls : List Doc) (h : ∀ l ∈ ls, '\n' ∉ l) (t : Doc) :
    splitLines (catLines ls t) = ls ++ splitLines t := by
  induction ls with
  | nil => rfl
  | cons l ls ih =>
    have hl : '\n' ∉ l := h l (by simp)
    have hr : ∀ x ∈ ls, '\n' ∉ x := fun x hx => h x (by simp [hx])
    simp [catLines, splitLines_append l hl, ih hr]

theorem unlines_single (l : Doc) : unlines [l] = l := rfl

theorem unlines_cons (l x : Doc) (xs : List Doc) :
    unlines (l :: x :: xs) = l ++ '\n' :: unlines (x :: xs) := rfl

theorem unlines_splitLines (d : Doc) : unlines (splitLines d) = d := by
  induction d with
  | nil => rfl
  | cons c cs ih =>
    by_cases hc : c = '\n'
    · subst hc
      have h1 : splitLines ('\n' :: cs) = [] :: splitLines cs := by
        simp [splitLines, splitLinesAux]
      rw [h1]
      have h2 : splitLines cs = (splitLinesAux cs).1 :: (splitLinesAux cs).2 := rfl
      rw [h2]
      simp only [unlines]
      rw [← h2, ih]
      rfl
    · have h1 : splitLines (c :: cs) = (c :: (splitLinesAux cs).1) :: (splitLinesAux cs).2 := by
        simp [splitLines, splitLinesAux, hc]
      rw [h1]
      rcases h2 : (splitLinesAux cs).2 with _ | ⟨x, xs⟩
      · have h4 : (splitLinesAux cs).1 = cs := by
          have ih' := ih
          rw [splitLines, h2, unlines_single] at ih'
          exact ih'
        rw [unlines_single, h4]
      · have ih' := ih
        rw [splitLines, h2, unlines_cons] at ih'
        rw [unlines_cons, List.cons_append, ih']

theorem splitAtFence_of_not_mem (fence : Doc) (ls : List Doc) (h : fence ∉ ls) :
    splitAtFence fence ls = none := by
  induction ls with
  | nil => rfl
  | cons l ls ih =>
    simp only [List.mem_cons, not_or] at h
    have hl : ¬(l = fence) := fun he => h.1 he.symm
    simp [splitAtFence, hl, ih h.2]

theorem splitAtFence_append (fence : Doc) (block rest : List Doc) (h : fence ∉ block) :
    splitAtFence fence (block ++ fence :: rest) = some (block, rest) := by
  induction block with
  | nil => simp [splitAtFence]
  | cons l ls ih =>
    simp only [List.mem_cons, not_or] at h
    have hl : ¬(l = fence) := fun he => h.1 he.symm
    simp [splitAtFence, hl, ih h.2]

theorem fenceParse_catLines (fence : Doc) (leaf : List Doc → Option (List (Doc × Value)))
    (block : List Doc) (body : Doc) (hf : '\n' ∉ fence) (hb : ∀ l ∈ block, '\n' ∉ l)
    (hnb : fence ∉ block) :
    fenceParse fence leaf (catLines (fence :: block ++ [fence]) body) =
      (match leaf block with
       | none => .err .malformedBlock
       | some pairs => .ok (buildMetadata pairs) body) := by
  have hall : ∀ l ∈ fence :: block ++ [fence], '\n' ∉ l := by
    intro l hl
    rcases (by simpa using hl : l = fence ∨ l ∈ block ∨ l = fence) with h | h | h
    · exact h ▸ hf
    · exact hb l h
    · exact h ▸ hf
  have hsplit := splitLines_catLines (fence :: block ++ [fence]) hall body
  rw [splitLines] at hsplit
  have hpair := List.cons.inj hsplit
  have hs1 : (splitLinesAux (catLines (fence :: block ++ [fence]) body)).1 = fence := hpair.1
  have hs2 : (splitLinesAux (catLines (fence :: block ++ [fence]) body)).2 =
      block ++ fence :: splitLines body := by
    rw [hpair.2]
    simp
  rw [fenceParse]
  simp only [hs1, hs2, if_pos]
  rw [splitAtFence_append fence block (splitLines body) hnb]
  rcases hleaf : leaf block with _ | pairs <;> simp [hleaf, unlines_splitLines]

theorem fenceParse_ok (fence : Doc) (leaf : List Doc → Option (List (Doc × Value)))
    (block : List Doc) (body : Doc) (pairs : List (Doc × Value)) (hf : '\n' ∉ fence)
    (hb : ∀ l ∈ block, '\n' ∉ l) (hnb : fence ∉ block) (hleaf : leaf block = some pairs) :
    fenceParse fence leaf (catLines (fence :: block ++ [fence]) body) =
      .ok (buildMetadata pairs) body := by
  rw [fenceParse_catLines fence leaf block body hf hb hnb, hleaf]

theorem fenceParse_malformed (fence : Doc) (leaf : List Doc → Option (List (Doc × Value)))
    (block : List Doc) (body : Doc) (hf : '\n' ∉ fence) (hb : ∀ l ∈ block, '\n' ∉ l)
    (hnb : fence ∉ block) (hleaf : leaf block = none) :
    fenceParse fence leaf (catLines (fence :: block ++ [fence]) body) =
      .err .malformedBlock := by
  rw [fenceParse_catLines fence leaf block body hf hb hnb, hleaf]

theorem fenceParse_unterminated (fence : Doc) (leaf : List Doc → Option (List (Doc × Value)))
    (block : List Doc) (hf : '\n' ∉ fence) (hb : ∀ l ∈ block, '\n' ∉ l)
    (hnb : fence ∉ block) (hfe : fence ≠ []) :
    fenceParse fence leaf (catLines (fence :: block) []) = .err .unterminatedBlock := by
  have hall : ∀ l ∈ fence :: block, '\n' ∉ l := by
    intro l hl
    rcases (by simpa using hl : l = fence ∨ l ∈ block) with h | h
    · exact h ▸ hf
    · exact hb l h
  have hsplit := splitLines_catLines (fence :: block) hall []
  rw [splitLines] at hsplit
  have hpair := List.cons.inj hsplit
  have hs1 : (splitLinesAux (catLines (fence :: block) [])).1 = fence := hpair.1
  have hs2 : (splitLinesAux (catLines (fence :: block) [])).2 = block ++ splitLines [] := hpair.2
  have hnm : fence ∉ block ++ splitLines [] := by
    intro hmem
    rcases List.mem_append.mp hmem with h | h
    · exact hnb h
    · have : fence = ([] : Doc) := by simpa [splitLines, splitLinesAux] using h
      exact hfe this
  rw [fenceParse]
  simp only [hs1, hs2, if_pos]
  rw [splitAtFence_of_not_mem fence _ hnm]

theorem fenceParse_absent (fence : Doc) (leaf : List Doc → Option (List (Doc × Value)))
    (d : Doc) (h : (splitLinesAux d).1 ≠ fence) :
    fenceParse fence leaf d = .err .absentMetadata := by
  rw [fenceParse]
  simp only [if_neg h]

theorem firstNonEmptyLine_of_first (d : Doc) (h : (splitLinesAux d).1 ≠ []) :
    firstNonEmptyLine d = (splitLinesAux d).1 := by
  unfold firstNonEmptyLine splitLines
  rw [List.dropWhile_cons]
  have he : (splitLinesAux d).1.isEmpty = false := by
    cases hx : (splitLinesAux d).1
    · exact absurd hx h
    · rfl
  simp [he]

theorem first_ne_of_fnel (d fence : Doc) (hfe : fence ≠ []) (h : firstNonEmptyLine d ≠ fence) :
    (splitLinesAux d).1 ≠ fence := by
  intro he
  apply h
  rw [firstNonEmptyLine_of_first d (by rw [he]; exact hfe), he]

theorem sniff_of_first_toml (d : Doc) (h : (splitLinesAux d).1 = tomlFence) : sniff d = .toml := by
  have hne : (splitLinesAux d).1 ≠ [] := by rw [h]; decide
  rw [sniff, firstNonEmptyLine_of_first d hne, h, if_pos rfl]

theorem sniff_of_first_yaml (d : Doc) (h : (splitLinesAux d).1 = yamlFence) : sniff d = .yaml := by
  have hne : (splitLinesAux d).1 ≠ [] := by rw [h]; decide
  rw [sniff, firstNonEmptyLine_of_first d hne, h, if_neg (by decide), if_pos rfl]

theorem splitLinesAux_fst_cons (c : Char) (r : Doc) (hc : ¬(c = '\n')) :
    (splitLinesAux (c :: r)).1 = c :: (splitLinesAux r).1 := by
  simp [splitLinesAux, hc]

theorem sniff_brace (r : Doc) : sniff ('\x7b' :: r) = .json := by
  have ha : (splitLinesAux ('\x7b' :: r)).1 = '\x7b' :: (splitLinesAux r).1 :=
    splitLinesAux_fst_cons '\x7b' r (by decide)
  have h1 : firstNonEmptyLine ('\x7b' :: r) = '\x7b' :: (splitLinesAux r).1 := by
    rw [firstNonEmptyLine_of_first _ (by rw [ha]; simp), ha]
  have hn1 : ('\x7b' :: (splitLinesAux r).1) ≠ tomlFence := by
    intro he
    rw [show tomlFence = ['+', '+', '+'] from rfl] at he
    exact absurd (List.cons.inj he).1 (by decide)
  have hn2 : ('\x7b' :: (splitLinesAux r).1) ≠ yamlFence := by
    intro he
    rw [show yamlFence = ['-', '-', '-'] from rfl] at he
    exact absurd (List.cons.inj he).1 (by decide)
  rw [sniff, h1, if_neg hn1, if_neg hn2]
  rfl

theorem sniff_fnone (d : Doc) (h1 : firstNonEmptyLine d ≠ tomlFence)
    (h2 : firstNonEmptyLine d ≠ yamlFence) (h3 : d.headD ' ' ≠ '\x7b') : sniff d = .fnone := by
  rw [sniff, if_neg h1, if_neg h2, if_neg h3]

theorem jsonParse_absent (d : Doc) (h : (trimLeft d).headD ' ' ≠ '\x7b') :
    jsonParse d = .err .absentMetadata := by
  unfold jsonParse
  split
  · next rest heq => exact absurd (by rw [heq]; rfl) h
  · rfl

theorem headD_ne_of_trimLeft (d : Doc) (h : (trimLeft d).headD ' ' ≠ '\x7b') :
    d.headD ' ' ≠ '\x7b' := by
  intro he
  cases d with
  | nil => exact absurd he (by decide)
  | cons c r =>
    have hc : c = '\x7b' := he
    subst hc
    have : trimLeft ('\x7b' :: r) = '\x7b' :: r := by
      unfold trimLeft
      rw [List.dropWhile_cons]
      simp [isWS]
    exact h (by rw [this]; rfl)

theorem mkResult_ok (k : FormatKind) (d : Doc) (md : Metadata) (body : Doc)
    (h : runFormat k d = .ok md body) : mkResult k d = ⟨formatName k, true, md, body⟩ := by
  unfold mkResult
  rw [h]

theorem mkResult_err (k : FormatKind) (d : Doc) (e : ParseError)
    (h : runFormat k d = .err e) : mkResult k d = ⟨formatName k, false, emptyMetadata, []⟩ := by
  unfold mkResult
  rw [h]

theorem buildMetadata_vars (pairs : List (Doc × Value)) : (buildMetadata pairs).vars = pairs := rfl

theorem buildMetadata_title (pairs : List (Doc × Value)) (s : Doc)
    (h : List.lookup "title".toList pairs = some (Value.str s)) :
    (buildMetadata pairs).title = s := by
  show lookupStr pairs "title".toList = s
  unfold lookupStr
  rw [h]

theorem buildMetadata_template (pairs : List (Doc × Value)) (s : Doc)
    (h : List.lookup "template".toList pairs = some (Value.str s)) :
    (buildMetadata pairs).template = s := by
  show lookupStr pairs "template".toList = s
  unfold lookupStr
  rw [h]

theorem fenceParse_ok_inv (fence : Doc) (leaf : List Doc → Option (List (Doc × Value)))
    (d : Doc) (md : Metadata) (body : Doc) (h : fenceParse fence leaf d = .ok md body) :
    ∃ pairs, md = buildMetadata pairs := by
  unfold fenceParse at h
  dsimp only at h
  split at h
  · split at h
    · exact absurd h (by simp)
    · split at h
      · exact absurd h (by simp)
      · next pairs heq =>
        refine ⟨pairs, ?_⟩
        simp only [PResult.ok.injEq] at h
        exact h.1.symm
  · exact absurd h (by simp)

theorem jsonParse_ok_inv (d : Doc) (md : Metadata) (body : Doc)
    (h : jsonParse d = .ok md body) : ∃ pairs, md = buildMetadata pairs := by
  unfold jsonParse at h
  split at h
  · split at h
    · exact absurd h (by simp)
    · split at h
      · exact absurd h (by simp)
      · next pairs heq =>
        refine ⟨pairs, ?_⟩
        simp only [PResult.ok.injEq] at h
        exact h.1.symm
  · exact absurd h (by simp)

theorem runFormat_ok_metadata (k : FormatKind) (d : Doc) (md : Metadata) (body : Doc)
    (h : runFormat k d = .ok md body) : ∃ pairs, md = buildMetadata pairs := by
  cases k with
  | toml =>
    unfold runFormat tomlParse at h
    exact fenceParse_ok_inv tomlFence tomlLeaf d md body h
  | yaml =>
    unfold runFormat yamlParse at h
    exact fenceParse_ok_inv yamlFence yamlLeaf d md body h
  | json =>
    unfold runFormat at h
    exact jsonParse_ok_inv d md body h
  | fnone =>
    unfold runFormat noneParse at h
    simp only [PResult.ok.injEq] at h
    exact ⟨[], h.1.symm⟩

/-- C5: for every Metadata record produced by a successful Init of any
format parser, whenever the key "title" is present in the variables
mapping with a string value the denormalized title field equals it, and
likewise for "template": the denormalized fields always agree with the
variables mapping. -/
theorem c5_denormalized_fields (k : FormatKind) (d : Doc) (md : Metadata) (body : Doc)
    (h : runFormat k d = .ok md body) :
    (∀ s, List.lookup "title".toList md.vars = some (Value.str s) → md.title = s) ∧
    (∀ s, List.lookup "template".toList md.vars = some (Value.str s) → md.template = s) := by
  obtain ⟨pairs, rfl⟩ := runFormat_ok_metadata k d md body h
  exact ⟨fun s hs => buildMetadata_title pairs s hs, fun s hs => buildMetadata_template pairs s hs⟩

theorem c5_witness :
    runFormat FormatKind.toml "+++\ntitle = \x22T\x22\ntemplate = \x22D\x22\n+++\nB".toList =
      PResult.ok ⟨"T".toList, "D".toList,
        [("title".toList, Value.str "T".toList), ("template".toList, Value.str "D".toList)]⟩
        "B".toList ∧
    (⟨"T".toList, "D".toList,
        [("title".toList, Value.str "T".toList), ("template".toList, Value.str "D".toList)]⟩ :
      Metadata).title = "T".toList := by
  constructor
  · decide
  · exact (c5_denormalized_fields FormatKind.toml
      "+++\ntitle = \x22T\x22\ntemplate = \x22D\x22\n+++\nB".toList
      ⟨"T".toList, "D".toList,
        [("title".toList, Value.str "T".toList), ("template".toList, Value.str "D".toList)]⟩
      "B".toList (by decide)).1 "T".toList (by decide)

/-- C2: a document with no opening delimiter of any of the three formats
(its first non-empty line is neither fence and its first significant
character is not an opening brace) fails a direct Init on each format's
parser with AbsentMetadata, while GetParser on the same input returns the
None variant, initialized successfully, whose body is the whole input
unchanged. -/
theorem c2_no_delimiter (d : Doc)
    (h1 : firstNonEmptyLine d ≠ tomlFence) (h2 : firstNonEmptyLine d ≠ yamlFence)
    (h3 : (trimLeft d).headD ' ' ≠ '\x7b') :
    tomlParse d = .err .absentMetadata ∧ yamlParse d = .err .absentMetadata ∧
    jsonParse d = .err .absentMetadata ∧ initB .toml d = false ∧ initB .yaml d = false ∧
    initB .json d = false ∧ GetParser d = ⟨"None", true, emptyMetadata, d⟩ := by
  have ht : tomlParse d = .err .absentMetadata :=
    fenceParse_absent tomlFence tomlLeaf d (first_ne_of_fnel d tomlFence (by decide) h1)
  have hy : yamlParse d = .err .absentMetadata :=
    fenceParse_absent yamlFence yamlLeaf d (first_ne_of_fnel d yamlFence (by decide) h2)
  have hj := jsonParse_absent d h3
  have hsn : sniff d = .fnone := sniff_fnone d h1 h2 (headD_ne_of_trimLeft d h3)
  refine ⟨ht, hy, hj, ?_, ?_, ?_, ?_⟩
  · simp [initB, runFormat, ht]
  · simp [initB, runFormat, hy]
  · simp [initB, runFormat, hj]
  · unfold GetParser
    rw [hsn]
    exact mkResult_ok .fnone d emptyMetadata d rfl

theorem c2_witness :
    tomlParse "Just some prose.\n".toList = .err .absentMetadata ∧
    yamlParse "Just some prose.\n".toList = .err .absentMetadata ∧
    jsonParse "Just some prose.\n".toList = .err .absentMetadata ∧
    GetParser "Just some prose.\n".toList = ⟨"None", true, emptyMetadata, "Just some prose.\n".toList⟩ := by
  have h := c2_no_delimiter "Just some prose.\n".toList (by decide) (by decide) (by decide)
  exact ⟨h.1, h.2.1, h.2.2.1, h.2.2.2.2.2.2⟩

/-- C6: for the concrete TOML input of the spec scenario, the selected
parser has type TOML, Init succeeds, the metadata title is "A title", the
template is "default", and the body trimmed of surrounding whitespace is
"Page content". -/
theorem c6_toml_scenario :
    (GetParser "+++\ntitle = \x22A title\x22\ntemplate = \x22default\x22\n+++\nPage content\n".toList).ptype = "TOML" ∧
    (GetParser "+++\ntitle = \x22A title\x22\ntemplate = \x22default\x22\n+++\nPage content\n".toList).initOK = true ∧
    (GetParser "+++\ntitle = \x22A title\x22\ntemplate = \x22default\x22\n+++\nPage content\n".toList).metadata.title = "A title".toList ∧
    (GetParser "+++\ntitle = \x22A title\x22\ntemplate = \x22default\x22\n+++\nPage content\n".toList).metadata.template = "default".toList ∧
    trimSpace (GetParser "+++\ntitle = \x22A title\x22\ntemplate = \x22default\x22\n+++\nPage content\n".toList).markdown = "Page content".toList := by
  decide

/-- C9: the parser returned by GetParser is already initialized against the
input bytes: whenever initialization of the sniffed format succeeds, the
returned record already carries the metadata and the body, so they may be
read immediately without the caller invoking Init. -/
theorem c9_selected_initialized (d : Doc) (md : Metadata) (body : Doc)
    (h : runFormat (sniff d) d = .ok md body) :
    GetParser d = ⟨formatName (sniff d), true, md, body⟩ := by
  unfold GetParser
  exact mkResult_ok (sniff d) d md body h

theorem c9_witness :
    runFormat (sniff "no front matter here".toList) "no front matter here".toList =
      PResult.ok emptyMetadata "no front matter here".toList ∧
    GetParser "no front matter here".toList =
      ⟨"None", true, emptyMetadata, "no front matter here".toList⟩ := by
  constructor
  · decide
  · exact c9_selected_initialized "no front matter here".toList emptyMetadata
      "no front matter here".toList (by decide)

/-- C10: a parser instance may be initialized repeatedly: after any earlier
Init (on any document, failed or successful), a subsequent Init on a
well-formed document succeeds and yields the same metadata and body as a
fresh parser would, independent of the previous state. -/
theorem c10_reinit (k : FormatKind) (st st2 : ParserState) (d0 d : Doc) (md : Metadata)
    (body : Doc) (h : runFormat k d = .ok md body) :
    initStep k (initStep k st d0) d = ⟨md, body, true⟩ ∧
    initStep k (initStep k st d0) d = initStep k st2 d := by
  unfold initStep
  rw [h]
  exact ⟨rfl, rfl⟩

theorem c10_witness :
    runFormat FormatKind.toml "+++\na = 1\n+++\nX".toList =
      PResult.ok (buildMetadata [("a".toList, Value.int 1)]) "X".toList ∧
    initStep FormatKind.toml
        (initStep FormatKind.toml ⟨emptyMetadata, [], false⟩ "garbage".toList)
        "+++\na = 1\n+++\nX".toList =
      ⟨buildMetadata [("a".toList, Value.int 1)], "X".toList, true⟩ := by
  constructor
  · decide
  · exact (c10_reinit FormatKind.toml ⟨emptyMetadata, [], false⟩ ⟨emptyMetadata, [], false⟩
      "garbage".toList "+++\na = 1\n+++\nX".toList _ _ (by decide)).1

theorem scanJSON_no_close_aux :
    ∀ n (d : Doc), d.length ≤ n → ∀ depth inStr, '\x7d' ∉ d → scanJSON d depth inStr = none := by
  intro n
  induction n with
  | zero =>
    intro d hd depth inStr h
    cases d with
    | nil => rfl
    | cons c cs => simp at hd
  | succ n ih =>
    intro d hd depth inStr h
    cases d with
    | nil => rfl
    | cons c cs =>
      simp only [List.mem_cons, not_or] at h
      have hc : ¬(c = '\x7d') := fun he => h.1 he.symm
      have hcs : '\x7d' ∉ cs := h.2
      have hlen : cs.length ≤ n := by
        simp only [List.length_cons] at hd
        omega
      cases hin : inStr with
      | true =>
        by_cases hb : c = '\x5c'
        · subst hb
          cases cs with
          | nil => rfl
          | cons e es =>
            have hes : '\x7d' ∉ es := fun hm => hcs (by simp [hm])
            have hl2 : es.length ≤ n := by
              simp only [List.length_cons] at hlen
              omega
            unfold scanJSON
            simp [ih es hl2 depth true hes]
        · by_cases hq : c = '\x22'
          · subst hq
            unfold scanJSON
            simp [ih cs hlen depth false hcs]
          · unfold scanJSON
            simp [hb, hq, ih cs hlen depth true hcs]
      | false =>
        by_cases hq : c = '\x22'
        · subst hq
          unfold scanJSON
          simp [ih cs hlen depth true hcs]
        · by_cases hob : c = '\x7b'
          · subst hob
            unfold scanJSON
            simp [ih cs hlen (depth + 1) false hcs]
          · unfold scanJSON
            simp [hq, hob, hc, ih cs hlen depth false hcs]

theorem scanJSON_no_close (d : Doc) (depth : Nat) (inStr : Bool) (h : '\x7d' ∉ d) :
    scanJSON d depth inStr = none :=
  scanJSON_no_close_aux d.length d (Nat.le_refl _) depth inStr h

/-- C3: for every one of the three formats, a document whose metadata block
is opened but never closed before end-of-input fails Init with
UnterminatedBlock; in particular any JSON input whose brace span never
closes, such as an object missing its closing brace, makes the JSON
parser's Init return false. -/
theorem c3_unterminated :
    (∀ block, (∀ l ∈ block, '\n' ∉ l) → tomlFence ∉ block →
      tomlParse (catLines (tomlFence :: block) []) = .err .unterminatedBlock ∧
      initB .toml (catLines (tomlFence :: block) []) = false) ∧
    (∀ block, (∀ l ∈ block, '\n' ∉ l) → yamlFence ∉ block →
      yamlParse (catLines (yamlFence :: block) []) = .err .unterminatedBlock ∧
      initB .yaml (catLines (yamlFence :: block) []) = false) ∧
    (∀ d rest, trimLeft d = '\x7b' :: rest → '\x7d' ∉ rest →
      jsonParse d = .err .unterminatedBlock ∧ initB .json d = false) := by
  refine ⟨?_, ?_, ?_⟩
  · intro block hb hnb
    have h := fenceParse_unterminated tomlFence tomlLeaf block (by decide) hb hnb (by decide)
    exact ⟨h, by simp [initB, runFormat, tomlParse, h]⟩
  · intro block hb hnb
    have h := fenceParse_unterminated yamlFence yamlLeaf block (by decide) hb hnb (by decide)
    exact ⟨h, by simp [initB, runFormat, yamlParse, h]⟩
  · intro d rest ht hr
    have hs := scanJSON_no_close rest 1 false hr
    have hj : jsonParse d = .err .unterminatedBlock := by
      unfold jsonParse
      rw [ht]
      simp [hs]
    exact ⟨hj, by simp [initB, runFormat, hj]⟩

theorem c3_witness :
    tomlParse (catLines (tomlFence :: ["a = 1".toList]) []) = .err .unterminatedBlock ∧
    yamlParse (catLines (yamlFence :: ["a : 1".toList]) []) = .err .unterminatedBlock ∧
    jsonParse "\x7b\x22a\x22:1".toList = .err .unterminatedBlock ∧
    initB .json "\x7b\x22a\x22:1".toList = false :=
  ⟨(c3_unterminated.1 ["a = 1".toList] (by decide) (by decide)).1,
   (c3_unterminated.2.1 ["a : 1".toList] (by decide) (by decide)).1,
   (c3_unterminated.2.2 "\x7b\x22a\x22:1".toList "\x22a\x22:1".toList (by decide) (by decide)).1,
   (c3_unterminated.2.2 "\x7b\x22a\x22:1".toList "\x22a\x22:1".toList (by decide) (by decide)).2⟩

/-- C4: for every one of the three formats, a document whose delimiters
match but whose enclosed block text fails the leaf-format syntax (for
example a doubled colon in a JSON block) fails Init with MalformedBlock. -/
theorem c4_malformed :
    (∀ block body, (∀ l ∈ block, '\n' ∉ l) → tomlFence ∉ block → tomlLeaf block = none →
      tomlParse (catLines (tomlFence :: block ++ [tomlFence]) body) = .err .malformedBlock ∧
      initB .toml (catLines (tomlFence :: block ++ [tomlFence]) body) = false) ∧
    (∀ block body, (∀ l ∈ block, '\n' ∉ l) → yamlFence ∉ block → yamlLeaf block = none →
      yamlParse (catLines (yamlFence :: block ++ [yamlFence]) body) = .err .malformedBlock ∧
      initB .yaml (catLines (yamlFence :: block ++ [yamlFence]) body) = false) ∧
    (∀ d rest p, trimLeft d = '\x7b' :: rest → scanJSON rest 1 false = some p →
      jsonLeaf ('\x7b' :: p.1) = none →
      jsonParse d = .err .malformedBlock ∧ initB .json d = false) := by
  refine ⟨?_, ?_, ?_⟩
  · intro block body hb hnb hleaf
    have h := fenceParse_malformed tomlFence tomlLeaf block body (by decide) hb hnb hleaf
    refine ⟨h, ?_⟩
    unfold initB runFormat tomlParse
    dsimp only
    rw [h]
  · intro block body hb hnb hleaf
    have h := fenceParse_malformed yamlFence yamlLeaf block body (by decide) hb hnb hleaf
    refine ⟨h, ?_⟩
    unfold initB runFormat yamlParse
    dsimp only
    rw [h]
  · intro d rest p ht hscan hleaf
    have hj : jsonParse d = .err .malformedBlock := by
      unfold jsonParse
      rw [ht]
      simp [hscan, hleaf]
    exact ⟨hj, by simp [initB, runFormat, hj]⟩

theorem c4_witness :
    tomlParse (catLines (tomlFence :: ["title ?? 1".toList] ++ [tomlFence]) "B".toList) =
      .err .malformedBlock ∧
    yamlParse (catLines (yamlFence :: ["no colon here".toList] ++ [yamlFence]) "B".toList) =
      .err .malformedBlock ∧
    jsonParse "\x7b\n\x22title\x22 :: \x22A title\x22\n\x7d\nBody".toList = .err .malformedBlock :=
  ⟨(c4_malformed.1 ["title ?? 1".toList] "B".toList (by decide) (by decide) (by decide)).1,
   (c4_malformed.2.1 ["no colon here".toList] "B".toList (by decide) (by decide) (by decide)).1,
   (c4_malformed.2.2 "\x7b\n\x22title\x22 :: \x22A title\x22\n\x7d\nBody".toList
      "\n\x22title\x22 :: \x22A title\x22\n\x7d\nBody".toList
      ("\n\x22title\x22 :: \x22A title\x22\n\x7d".toList, "\nBody".toList)
      (by decide) (by decide) (by decide)).1⟩

theorem isDigit_ne (c a : Char) (h : c.isDigit = true) (ha : a.isDigit = false) : ¬(c = a) := by
  intro he
  subst he
  rw [h] at ha
  cases ha

theorem isWS_eq_false_of_isDigit (c : Char) (h : c.isDigit = true) : isWS c = false := by
  have h1 : ¬(c = ' ') := isDigit_ne c ' ' h (by decide)
  have h2 : ¬(c = '\t') := isDigit_ne c '\t' h (by decide)
  have h3 : ¬(c = '\n') := isDigit_ne c '\n' h (by decide)
  have h4 : ¬(c = '\r') := isDigit_ne c '\r' h (by decide)
  simp [isWS, h1, h2, h3, h4]

theorem trimLeft_cons_of_ws (c : Char) (r : Doc) (h : isWS c = true) :
    trimLeft (c :: r) = trimLeft r := by
  simp [trimLeft, List.dropWhile_cons, h]

theorem trimLeft_cons_of_not_ws (c : Char) (r : Doc) (h : isWS c = false) :
    trimLeft (c :: r) = c :: r := by
  simp [trimLeft, List.dropWhile_cons, h]

theorem takeWhile_append_all (p : Char → Bool) (ds rest : Doc) (h : ∀ c ∈ ds, p c = true)
    (hr : ∀ c, rest.head? = some c → p c = false) :
    (ds ++ rest).takeWhile p = ds ∧ (ds ++ rest).dropWhile p = rest := by
  induction ds with
  | nil =>
    cases rest with
    | nil => exact ⟨rfl, rfl⟩
    | cons c r =>
      have hc := hr c rfl
      simp [List.takeWhile_cons, List.dropWhile_cons, hc]
  | cons a as ih =>
    have ha : p a = true := h a (by simp)
    have h' : ∀ c ∈ as, p c = true := fun c hc => h c (by simp [hc])
    obtain ⟨h1, h2⟩ := ih h'
    simp [List.takeWhile_cons, List.dropWhile_cons, ha, h1, h2]

theorem strState_append (s t : Doc) (b : Bool) :
    strState (s ++ t) b = strState t (strState s b) := by
  induction s generalizing b with
  | nil => rfl
  | cons c cs ih => simp [strState, ih]

theorem strState_no_quote (s : Doc) (h : '\x22' ∉ s) (b : Bool) : strState s b = b := by
  induction s generalizing b with
  | nil => rfl
  | cons c cs ih =>
    simp only [List.mem_cons, not_or] at h
    have hc : ¬(c = '\x22') := fun he => h.1 he.symm
    simp [strState, hc, ih h.2]

theorem jsonString_render (s : Doc) (h1 : '\x22' ∉ s) (h2 : '\x5c' ∉ s) (rest : Doc) :
    jsonString (s ++ '\x22' :: rest) = some (s, rest) := by
  induction s with
  | nil =>
    unfold jsonString
    simp
  | cons c cs ih =>
    simp only [List.mem_cons, not_or] at h1 h2
    have hc1 : ¬(c = '\x22') := fun he => h1.1 he.symm
    have hc2 : ¬(c = '\x5c') := fun he => h2.1 he.symm
    unfold jsonString
    simp [hc1, hc2, ih h1.2 h2.2]

theorem jsonNumAux_digits (neg : Bool) (ds fs rest : Doc) (hds : ds ≠ [])
    (hd : ∀ c ∈ ds, c.isDigit = true) (hf : ∀ c ∈ fs, c.isDigit = true)
    (hr : ∀ c, rest.head? = some c → (c.isDigit = false ∧ ¬(c = '.'))) :
    jsonNumAux neg ((ds ++ (if fs.isEmpty then [] else '.' :: fs)) ++ rest) =
      some (litValue (.num neg ds fs), rest) := by
  have hdsE : ds.isEmpty = false := by
    cases ds with
    | nil => exact absurd rfl hds
    | cons a as => rfl
  cases fs with
  | nil =>
    have hrd : ∀ c, rest.head? = some c → Char.isDigit c = false := fun c hc => (hr c hc).1
    obtain ⟨ht, hdp⟩ := takeWhile_append_all Char.isDigit ds rest hd hrd
    have hshape : ((ds ++ (if ([] : Doc).isEmpty then [] else '.' :: [])) ++ rest) = ds ++ rest := by
      simp
    rw [hshape]
    unfold jsonNumAux
    simp only [ht, hdp, hdsE]
    cases hrest : rest with
    | nil => simp [litValue]
    | cons c r =>
      have hc := (hr c (by rw [hrest]; rfl)).2
      simp [hc, litValue]
  | cons f fs' =>
    have hdot : ∀ c, ('.' :: ((f :: fs') ++ rest)).head? = some c → Char.isDigit c = false := by
      intro c hc
      have : c = '.' := by
        simp only [List.head?_cons, Option.some.injEq] at hc
        exact hc.symm
      rw [this]
      decide
    obtain ⟨ht, hdp⟩ := takeWhile_append_all Char.isDigit ds ('.' :: ((f :: fs') ++ rest)) hd hdot
    have hrd : ∀ c, rest.head? = some c → Char.isDigit c = false := fun c hc => (hr c hc).1
    obtain ⟨ht2, hdp2⟩ := takeWhile_append_all Char.isDigit (f :: fs') rest hf hrd
    have hshape : ((ds ++ (if (f :: fs').isEmpty then [] else '.' :: (f :: fs'))) ++ rest) =
        ds ++ '.' :: ((f :: fs') ++ rest) := by
      simp
    rw [hshape]
    unfold jsonNumAux
    simp only [ht, hdp, hdsE, ht2, hdp2]
    simp [litValue]

theorem jsonNumber_render (neg : Bool) (ds fs rest : Doc) (hds : ds ≠ [])
    (hd : ∀ c ∈ ds, c.isDigit = true) (hf : ∀ c ∈ fs, c.isDigit = true)
    (hr : ∀ c, rest.head? = some c → (c.isDigit = false ∧ ¬(c = '.'))) :
    jsonNumber (renderLit (.num neg ds fs) ++ rest) = some (litValue (.num neg ds fs), rest) := by
  cases neg with
  | true =>
    have hshape : renderLit (.num true ds fs) ++ rest =
        '-' :: ((ds ++ (if fs.isEmpty then [] else '.' :: fs)) ++ rest) := by
      simp [renderLit]
    rw [hshape]
    unfold jsonNumber
    exact jsonNumAux_digits true ds fs rest hds hd hf hr
  | false =>
    cases ds with
    | nil => exact absurd rfl hds
    | cons d ds0 =>
      have hdd : d.isDigit = true := hd d (by simp)
      have hshape : renderLit (.num false (d :: ds0) fs) ++ rest =
          d :: ((ds0 ++ (if fs.isEmpty then [] else '.' :: fs)) ++ rest) := by
        simp [renderLit]
      rw [hshape]
      unfold jsonNumber
      split
      · next r heq =>
        have : d = '-' := (List.cons.inj heq).1
        exact absurd this (isDigit_ne d '-' hdd (by decide))
      · have hlem := jsonNumAux_digits false (d :: ds0) fs rest hds hd hf hr
        have hsh2 : ((d :: ds0) ++ (if fs.isEmpty then [] else '.' :: fs)) ++ rest =
            d :: ((ds0 ++ (if fs.isEmpty then [] else '.' :: fs)) ++ rest) := by simp
        rw [hsh2] at hlem
        exact hlem

theorem trimLeft_renderLit (l : JLit) (hw : litWF l) (X : Doc) :
    trimLeft (renderLit l ++ X) = renderLit l ++ X := by
  cases l with
  | str s =>
    have hshape : renderLit (.str s) ++ X = '\x22' :: (s ++ '\x22' :: X) := by
      simp [renderLit]
    rw [hshape, trimLeft_cons_of_not_ws _ _ (by decide)]
  | bool b =>
    cases b with
    | true =>
      have hshape : renderLit (.bool true) ++ X = 't' :: ("rue".toList ++ X) := by
        simp [renderLit]
      rw [hshape, trimLeft_cons_of_not_ws _ _ (by decide)]
    | false =>
      have hshape : renderLit (.bool false) ++ X = 'f' :: ("alse".toList ++ X) := by
        simp [renderLit]
      rw [hshape, trimLeft_cons_of_not_ws _ _ (by decide)]
  | num neg ds fs =>
    cases neg with
    | true =>
      have hshape : renderLit (.num true ds fs) ++ X =
          '-' :: ((ds ++ (if fs.isEmpty then [] else '.' :: fs)) ++ X) := by
        simp [renderLit]
      rw [hshape, trimLeft_cons_of_not_ws _ _ (by decide)]
    | false =>
      obtain ⟨hds, hd, hf⟩ := hw
      cases ds with
      | nil => exact absurd rfl hds
      | cons d ds0 =>
        have hdd : d.isDigit = true := hd d (by simp)
        have hshape : renderLit (.num false (d :: ds0) fs) ++ X =
            d :: ((ds0 ++ (if fs.isEmpty then [] else '.' :: fs)) ++ X) := by
          simp [renderLit]
        rw [hshape, trimLeft_cons_of_not_ws _ _ (isWS_eq_false_of_isDigit d hdd)]

theorem jsonValue_render (l : JLit) (hw : litWF l) (rest : Doc)
    (hr : ∀ c, rest.head? = some c → (c.isDigit = false ∧ ¬(c = '.'))) :
    jsonValue (renderLit l ++ rest) = some (litValue l, rest) := by
  cases l with
  | str s =>
    obtain ⟨h1, h2, _⟩ := hw
    have hshape : renderLit (.str s) ++ rest = '\x22' :: (s ++ '\x22' :: rest) := by
      simp [renderLit]
    rw [hshape]
    unfold jsonValue
    simp [jsonString_render s h1 h2 rest, litValue]
  | bool b =>
    cases b with
    | true =>
      have hshape : renderLit (.bool true) ++ rest = 't' :: 'r' :: 'u' :: 'e' :: rest := by
        simp [renderLit]
      rw [hshape]
      unfold jsonValue
      simp [litValue, List.take, List.drop]
    | false =>
      have hshape : renderLit (.bool false) ++ rest = 'f' :: 'a' :: 'l' :: 's' :: 'e' :: rest := by
        simp [renderLit]
      rw [hshape]
      unfold jsonValue
      simp [litValue, List.take, List.drop]
  | num neg ds fs =>
    obtain ⟨hds, hd, hf⟩ := hw
    have hnum := jsonNumber_render neg ds fs rest hds hd hf hr
    have hhead : ∃ c r, renderLit (.num neg ds fs) ++ rest = c :: r ∧
        ¬(c = '\x22') ∧ ¬(c = 't') ∧ ¬(c = 'f') := by
      cases neg with
      | true =>
        refine ⟨'-', (ds ++ (if fs.isEmpty then [] else '.' :: fs)) ++ rest, by simp [renderLit],
          by decide, by decide, by decide⟩
      | false =>
        cases ds with
        | nil => exact absurd rfl hds
        | cons d ds0 =>
          have hdd : d.isDigit = true := hd d (by simp)
          exact ⟨d, (ds0 ++ (if fs.isEmpty then [] else '.' :: fs)) ++ rest, by simp [renderLit],
            isDigit_ne d '\x22' hdd (by decide), isDigit_ne d 't' hdd (by decide),
            isDigit_ne d 'f' hdd (by decide)⟩
    obtain ⟨c, r, hcr, hq, hT, hF⟩ := hhead
    rw [hcr] at hnum ⊢
    unfold jsonValue
    have ht4 : ¬((c :: r).take 4 = "true".toList) := by
      intro he
      cases r with
      | nil => simp [List.take] at he
      | cons x xs =>
        have : c = 't' := by
          have h0 : (c :: x :: xs).take 4 = c :: (x :: xs).take 3 := rfl
          rw [h0] at he
          exact (List.cons.inj he).1
        exact hT this
    have ht5 : ¬((c :: r).take 5 = "false".toList) := by
      intro he
      cases r with
      | nil => simp [List.take] at he
      | cons x xs =>
        have : c = 'f' := by
          have h0 : (c :: x :: xs).take 5 = c :: (x :: xs).take 4 := rfl
          rw [h0] at he
          exact (List.cons.inj he).1
        exact hF this
    split
    · next s0 heq =>
      exact absurd (List.cons.inj heq).1 hq
    · rw [if_neg ht4, if_neg ht5]
      exact hnum

theorem scanJSON_cons_quote_out (cs : Doc) (depth : Nat) :
    scanJSON ('\x22' :: cs) depth false =
      (scanJSON cs depth true).map (fun p => ('\x22' :: p.1, p.2)) := by
  conv_lhs => rw [scanJSON.eq_def]
  simp

theorem scanJSON_cons_quote_in (cs : Doc) (depth : Nat) :
    scanJSON ('\x22' :: cs) depth true =
      (scanJSON cs depth false).map (fun p => ('\x22' :: p.1, p.2)) := by
  conv_lhs => rw [scanJSON.eq_def]
  simp

theorem scanJSON_cons_other_out (c : Char) (cs : Doc) (depth : Nat) (hq : ¬(c = '\x22'))
    (hb : ¬(c = '\x7b')) (hc : ¬(c = '\x7d')) :
    scanJSON (c :: cs) depth false =
      (scanJSON cs depth false).map (fun p => (c :: p.1, p.2)) := by
  conv_lhs => rw [scanJSON.eq_def]
  simp [hq, hb, hc]

theorem scanJSON_cons_other_in (c : Char) (cs : Doc) (depth : Nat) (he : ¬(c = '\x5c'))
    (hq : ¬(c = '\x22')) :
    scanJSON (c :: cs) depth true =
      (scanJSON cs depth true).map (fun p => (c :: p.1, p.2)) := by
  conv_lhs => rw [scanJSON.eq_def]
  simp [he, hq]

theorem scanJSON_cons_close1 (cs : Doc) : scanJSON ('\x7d' :: cs) 1 false = some (['\x7d'], cs) := by
  conv_lhs => rw [scanJSON.eq_def]
  simp

theorem scanJSON_skip : ∀ (s : Doc), '\x7b' ∉ s → '\x7d' ∉ s → '\x5c' ∉ s →
    ∀ (t : Doc) (depth : Nat) (b : Bool),
      scanJSON (s ++ t) depth b =
        (scanJSON t depth (strState s b)).map (fun p => (s ++ p.1, p.2)) := by
  intro s
  induction s with
  | nil =>
    intro _ _ _ t depth b
    cases hs : scanJSON t depth b <;> simp [strState, hs]
  | cons c cs ih =>
    intro h1 h2 h3 t depth b
    simp only [List.mem_cons, not_or] at h1 h2 h3
    have hcb : ¬(c = '\x7b') := fun he => h1.1 he.symm
    have hcc : ¬(c = '\x7d') := fun he => h2.1 he.symm
    have hce : ¬(c = '\x5c') := fun he => h3.1 he.symm
    have ih' := ih h1.2 h2.2 h3.2
    rw [List.cons_append]
    cases b with
    | true =>
      by_cases hq : c = '\x22'
      · subst hq
        rw [scanJSON_cons_quote_in, ih' t depth false]
        have hst : strState ('\x22' :: cs) true = strState cs false := by simp [strState]
        rw [hst]
        cases hres : scanJSON t depth (strState cs false) <;> simp
      · rw [scanJSON_cons_other_in c _ depth hce hq, ih' t depth true]
        have hst : strState (c :: cs) true = strState cs true := by simp [strState, hq]
        rw [hst]
        cases hres : scanJSON t depth (strState cs true) <;> simp
    | false =>
      by_cases hq : c = '\x22'
      · subst hq
        rw [scanJSON_cons_quote_out, ih' t depth true]
        have hst : strState ('\x22' :: cs) false = strState cs true := by simp [strState]
        rw [hst]
        cases hres : scanJSON t depth (strState cs true) <;> simp
      · rw [scanJSON_cons_other_out c _ depth hq hcb hcc, ih' t depth false]
        have hst : strState (c :: cs) false = strState cs false := by simp [strState, hq]
        rw [hst]
        cases hres : scanJSON t depth (strState cs false) <;> simp

theorem scanJSON_span_close (inner : Doc) (h1 : '\x7b' ∉ inner) (h2 : '\x7d' ∉ inner)
    (h3 : '\x5c' ∉ inner) (hq : strState inner false = false) (body : Doc) :
    scanJSON (inner ++ '\x7d' :: body) 1 false = some (inner ++ ['\x7d'], body) := by
  rw [scanJSON_skip inner h1 h2 h3 ('\x7d' :: body) 1 false, hq, scanJSON_cons_close1]
  simp

theorem renderLit_not_mem (a : Char) (l : JLit) (hw : litWF l)
    (ha1 : a.isDigit = false) (ha2 : ¬(a = '\x22')) (ha3 : ¬(a = '-')) (ha4 : ¬(a = '.'))
    (ha5 : a ∉ "truefalse".toList) (hstr : ∀ s, l = JLit.str s → a ∉ s) :
    a ∉ renderLit l := by
  cases l with
  | str s =>
    have hs := hstr s rfl
    intro hmem
    simp [renderLit] at hmem
    rcases hmem with h | h | h
    · exact ha2 h
    · exact hs h
    · exact ha2 h
  | bool b =>
    intro hmem
    simp at ha5
    cases b <;> simp [renderLit] at hmem <;> rcases hmem with rfl | rfl | rfl | rfl | rfl <;>
      simp_all
  | num neg ds fs =>
    obtain ⟨_, hd, hf⟩ := hw
    intro hmem
    simp [renderLit] at hmem
    rcases hmem with h | h | h
    · rcases h with ⟨_, h⟩
      exact ha3 h
    · rw [hd a h] at ha1
      cases ha1
    · rcases h with ⟨_, h⟩
      rcases h with h | h
      · exact ha4 h
      · rw [hf a h] at ha1
        cases ha1

theorem renderMember_not_mem (a : Char) (k : Doc) (l : JLit) (hl : a ∉ renderLit l)
    (hk : a ∉ k) (ha2 : ¬(a = '\x22')) (ha6 : ¬(a = ' ')) (ha7 : ¬(a = ':')) :
    a ∉ renderMember k l := by
  intro hmem
  simp [renderMember] at hmem
  tauto

theorem renderMembers_not_mem (a : Char) (ps : List (Doc × JLit)) (hwf : pairsWF ps)
    (hkmem : ∀ p ∈ ps, a ∉ p.1) (hsmem : ∀ p ∈ ps, ∀ s, p.2 = JLit.str s → a ∉ s)
    (ha1 : a.isDigit = false) (ha2 : ¬(a = '\x22')) (ha3 : ¬(a = '-')) (ha4 : ¬(a = '.'))
    (ha5 : a ∉ "truefalse".toList) (ha6 : ¬(a = ' ')) (ha7 : ¬(a = ':')) (ha8 : ¬(a = ','))
    (ha9 : ¬(a = '\n')) : a ∉ renderMembers ps := by
  induction ps with
  | nil => simp [renderMembers]
  | cons p rest ih =>
    obtain ⟨k, l⟩ := p
    have hwl : litWF l := (hwf (k, l) (by simp)).2
    have hml : a ∉ renderLit l :=
      renderLit_not_mem a l hwl ha1 ha2 ha3 ha4 ha5 (hsmem (k, l) (by simp))
    have hmk : a ∉ k := hkmem (k, l) (by simp)
    have hmm : a ∉ renderMember k l := renderMember_not_mem a k l hml hmk ha2 ha6 ha7
    cases rest with
    | nil => simpa [renderMembers] using hmm
    | cons q qs =>
      have hwf' : pairsWF (q :: qs) := fun p hp => hwf p (by simp [hp])
      have hk' : ∀ p ∈ q :: qs, a ∉ p.1 := fun p hp => hkmem p (by simp [hp])
      have hs' : ∀ p ∈ q :: qs, ∀ s, p.2 = JLit.str s → a ∉ s :=
        fun p hp => hsmem p (by simp [hp])
      have ihr := ih hwf' hk' hs'
      intro hmem
      simp [renderMembers] at hmem
      rcases hmem with h | h | h | h
      · exact hmm h
      · exact ha8 h
      · exact ha9 h
      · exact ihr h

theorem strState_renderLit (l : JLit) (hw : litWF l) (b : Bool) :
    strState (renderLit l) b = b := by
  cases l with
  | str s =>
    obtain ⟨h1, _, _, _⟩ := hw
    have hshape : renderLit (.str s) = '\x22' :: (s ++ ['\x22']) := by simp [renderLit]
    rw [hshape]
    show strState (s ++ ['\x22']) (!b) = b
    rw [strState_append, strState_no_quote s h1]
    simp [strState]
  | bool bb =>
    have hq : '\x22' ∉ renderLit (.bool bb) := by cases bb <;> decide
    exact strState_no_quote _ hq b
  | num neg ds fs =>
    obtain ⟨hne, hd, hf⟩ := hw
    have hq : '\x22' ∉ renderLit (.num neg ds fs) := by
      intro hmem
      simp [renderLit] at hmem
      rcases hmem with h | h
      · exact absurd (hd '\x22' h) (by decide)
      · exact absurd (hf '\x22' h.2) (by decide)
    exact strState_no_quote _ hq b

theorem strState_renderMember (k : Doc) (l : JLit) (hk : '\x22' ∉ k) (hw : litWF l) (b : Bool) :
    strState (renderMember k l) b = b := by
  have hshape : renderMember k l = '\x22' :: (k ++ '\x22' :: ' ' :: ':' :: ' ' :: renderLit l) := by
    simp [renderMember]
  rw [hshape]
  show strState (k ++ '\x22' :: ' ' :: ':' :: ' ' :: renderLit l) (!b) = b
  rw [strState_append, strState_no_quote k hk]
  show strState (renderLit l) (!(!b)) = b
  rw [Bool.not_not]
  exact strState_renderLit l hw b

theorem strState_renderMembers (ps : List (Doc × JLit)) (hwf : pairsWF ps) (b : Bool) :
    strState (renderMembers ps) b = b := by
  induction ps with
  | nil => rfl
  | cons p rest ih =>
    obtain ⟨k, l⟩ := p
    have hk : keyWF k := (hwf (k, l) (by simp)).1
    have hl : litWF l := (hwf (k, l) (by simp)).2
    cases rest with
    | nil =>
      show strState (renderMembers [(k, l)]) b = b
      have : renderMembers [(k, l)] = renderMember k l := rfl
      rw [this]
      exact strState_renderMember k l hk.1 hl b
    | cons q qs =>
      have hwf' : pairsWF (q :: qs) := fun p hp => hwf p (by simp [hp])
      have hshape : renderMembers ((k, l) :: q :: qs) =
          renderMember k l ++ ',' :: '\n' :: renderMembers (q :: qs) := rfl
      rw [hshape, strState_append, strState_renderMember k l hk.1 hl]
      show strState (renderMembers (q :: qs)) b = b
      exact ih hwf'

theorem renderMembers_cons_shape (k : Doc) (l : JLit) (rest : List (Doc × JLit)) :
    ∃ y, renderMembers ((k, l) :: rest) = '\x22' :: y := by
  cases rest with
  | nil => exact ⟨k ++ '\x22' :: ' ' :: ':' :: ' ' :: renderLit l, rfl⟩
  | cons q qs =>
    refine ⟨(k ++ '\x22' :: ' ' :: ':' :: ' ' :: renderLit l) ++
      ',' :: '\n' :: renderMembers (q :: qs), ?_⟩
    rfl

theorem jsonMembersF_render : ∀ (ps : List (Doc × JLit)), ps ≠ [] → pairsWF ps →
    ∀ fuel, ps.length ≤ fuel →
    jsonMembersF fuel (renderMembers ps ++ ['\n', '\x7d']) = some (litPairs ps) := by
  intro ps
  induction ps with
  | nil => intro h; exact absurd rfl h
  | cons p rest ih =>
    obtain ⟨k, l⟩ := p
    intro _ hwf fuel hfuel
    obtain ⟨hk, hl⟩ := hwf (k, l) (by simp)
    cases fuel with
    | zero => simp at hfuel
    | succ f =>
      cases rest with
      | nil =>
        have hshape : renderMembers [(k, l)] ++ ['\n', '\x7d'] =
            '\x22' :: (k ++ '\x22' :: (' ' :: ':' :: ' ' :: (renderLit l ++ ['\n', '\x7d']))) := by
          simp [renderMembers, renderMember]
        rw [hshape]
        have h1 := jsonString_render k hk.1 hk.2.1
          (' ' :: ':' :: ' ' :: (renderLit l ++ ['\n', '\x7d']))
        have h2 : trimLeft (' ' :: ':' :: ' ' :: (renderLit l ++ ['\n', '\x7d'])) =
            ':' :: (' ' :: (renderLit l ++ ['\n', '\x7d'])) := by
          rw [trimLeft_cons_of_ws _ _ (by decide), trimLeft_cons_of_not_ws _ _ (by decide)]
        have h3 : trimLeft (' ' :: (renderLit l ++ ['\n', '\x7d'])) =
            renderLit l ++ ['\n', '\x7d'] := by
          rw [trimLeft_cons_of_ws _ _ (by decide), trimLeft_renderLit l hl]
        have h4 := jsonValue_render l hl ['\n', '\x7d'] (by
          intro c hc
          simp only [List.head?_cons, Option.some.injEq] at hc
          subst hc
          exact ⟨by decide, by decide⟩)
        have h5 : trimLeft (['\n', '\x7d'] : Doc) = ['\x7d'] := by decide
        unfold jsonMembersF
        simp [h1, h2, h3, h4, h5, litPairs]
        rfl
      | cons q qs =>
        obtain ⟨k2, l2⟩ := q
        have hwf' : pairsWF ((k2, l2) :: qs) := fun p hp => hwf p (by simp [hp])
        obtain ⟨y, hy⟩ := renderMembers_cons_shape k2 l2 qs
        have hshape : renderMembers ((k, l) :: (k2, l2) :: qs) ++ ['\n', '\x7d'] =
            '\x22' :: (k ++ '\x22' :: (' ' :: ':' :: ' ' ::
              (renderLit l ++ (',' :: '\n' :: (renderMembers ((k2, l2) :: qs) ++ ['\n', '\x7d']))))) := by
          simp [renderMembers, renderMember]
        rw [hshape]
        have h1 := jsonString_render k hk.1 hk.2.1
          (' ' :: ':' :: ' ' :: (renderLit l ++
            (',' :: '\n' :: (renderMembers ((k2, l2) :: qs) ++ ['\n', '\x7d']))))
        have h2 : trimLeft (' ' :: ':' :: ' ' :: (renderLit l ++
            (',' :: '\n' :: (renderMembers ((k2, l2) :: qs) ++ ['\n', '\x7d'])))) =
            ':' :: (' ' :: (renderLit l ++
              (',' :: '\n' :: (renderMembers ((k2, l2) :: qs) ++ ['\n', '\x7d'])))) := by
          rw [trimLeft_cons_of_ws _ _ (by decide), trimLeft_cons_of_not_ws _ _ (by decide)]
        have h3 : trimLeft (' ' :: (renderLit l ++
            (',' :: '\n' :: (renderMembers ((k2, l2) :: qs) ++ ['\n', '\x7d'])))) =
            renderLit l ++ (',' :: '\n' :: (renderMembers ((k2, l2) :: qs) ++ ['\n', '\x7d'])) := by
          rw [trimLeft_cons_of_ws _ _ (by decide), trimLeft_renderLit l hl]
        have h4 := jsonValue_render l hl
          (',' :: '\n' :: (renderMembers ((k2, l2) :: qs) ++ ['\n', '\x7d'])) (by
          intro c hc
          simp only [List.head?_cons, Option.some.injEq] at hc
          subst hc
          exact ⟨by decide, by decide⟩)
        have h5 : trimLeft (',' :: '\n' :: (renderMembers ((k2, l2) :: qs) ++ ['\n', '\x7d'])) =
            ',' :: ('\n' :: (renderMembers ((k2, l2) :: qs) ++ ['\n', '\x7d'])) := by
          rw [trimLeft_cons_of_not_ws _ _ (by decide)]
        have h6 : trimLeft ('\n' :: (renderMembers ((k2, l2) :: qs) ++ ['\n', '\x7d'])) =
            renderMembers ((k2, l2) :: qs) ++ ['\n', '\x7d'] := by
          rw [trimLeft_cons_of_ws _ _ (by decide), hy, List.cons_append,
            trimLeft_cons_of_not_ws _ _ (by decide)]
        have h7 := ih (by simp) hwf' f (by
          simp only [List.length_cons] at hfuel ⊢
          omega)
        unfold jsonMembersF
        simp [h1, h2, h3, h4, h5, h6, h7, litPairs]

theorem renderMembers_length (ps : List (Doc × JLit)) :
    ps.length ≤ (renderMembers ps).length + 1 := by
  induction ps with
  | nil => simp
  | cons p rest ih =>
    obtain ⟨k, l⟩ := p
    cases rest with
    | nil => simp [renderMembers]
    | cons q qs =>
      have hshape : renderMembers ((k, l) :: q :: qs) =
          renderMember k l ++ ',' :: '\n' :: renderMembers (q :: qs) := rfl
      rw [hshape]
      simp only [List.length_cons, List.length_append] at ih ⊢
      omega

theorem jsonLeaf_render (ps : List (Doc × JLit)) (hwf : pairsWF ps) :
    jsonLeaf (renderObj ps) = some (litPairs ps) := by
  cases ps with
  | nil => decide
  | cons p rest =>
    obtain ⟨k, l⟩ := p
    obtain ⟨y, hy⟩ := renderMembers_cons_shape k l rest
    have hshape : renderObj ((k, l) :: rest) =
        '\x7b' :: ('\n' :: (renderMembers ((k, l) :: rest) ++ ['\n', '\x7d'])) := by
      simp [renderObj]
    rw [hshape]
    unfold jsonLeaf
    rw [trimLeft_cons_of_not_ws _ _ (by decide)]
    have h2 : trimLeft ('\n' :: (renderMembers ((k, l) :: rest) ++ ['\n', '\x7d'])) =
        renderMembers ((k, l) :: rest) ++ ['\n', '\x7d'] := by
      rw [trimLeft_cons_of_ws _ _ (by decide), hy, List.cons_append,
        trimLeft_cons_of_not_ws _ _ (by decide)]
    have hlen : ((k, l) :: rest).length ≤
        (renderMembers ((k, l) :: rest) ++ ['\n', '\x7d']).length + 1 := by
      have := renderMembers_length ((k, l) :: rest)
      simp only [List.length_append, List.length_cons] at this ⊢
      omega
    have hmem := jsonMembersF_render ((k, l) :: rest) (by simp) hwf
      ((renderMembers ((k, l) :: rest) ++ ['\n', '\x7d']).length + 1) hlen
    split
    · next r heq =>
      have hr : ('\n' :: (renderMembers ((k, l) :: rest) ++ ['\n', '\x7d'])) = r :=
        (List.cons.inj heq).2
      subst hr
      rw [h2]
      split
      · next r2 heq2 =>
        rw [hy, List.cons_append] at heq2
        exact absurd (List.cons.inj heq2).1 (by decide)
      · exact hmem
    · next h => exact absurd rfl (h _)

theorem jsonParse_render (ps : List (Doc × JLit)) (hwf : pairsWF ps) (body : Doc) :
    jsonParse (renderObj ps ++ body) = .ok (buildMetadata (litPairs ps)) (dropOneNewline body) := by
  cases ps with
  | nil =>
    have hshape : renderObj [] ++ body = '\x7b' :: ('\x7d' :: body) := by simp [renderObj]
    rw [hshape]
    unfold jsonParse
    rw [trimLeft_cons_of_not_ws _ _ (by decide)]
    have hleaf : jsonLeaf ('\x7b' :: ['\x7d']) = some [] := by decide
    simp [scanJSON_cons_close1, hleaf, litPairs]
  | cons p rest =>
    obtain ⟨k, l⟩ := p
    have h1 : '\x7b' ∉ '\n' :: (renderMembers ((k, l) :: rest) ++ ['\n']) := by
      intro hmem
      simp at hmem
      exact renderMembers_not_mem '\x7b' ((k, l) :: rest) hwf
          (fun p hp => ((hwf p hp).1).2.2.1)
          (fun p hp s hs => by
            have := (hwf p hp).2
            rw [hs] at this
            exact this.2.2.1)
          (by decide) (by decide) (by decide) (by decide) (by decide) (by decide) (by decide)
          (by decide) (by decide) hmem
    have h2 : '\x7d' ∉ '\n' :: (renderMembers ((k, l) :: rest) ++ ['\n']) := by
      intro hmem
      simp at hmem
      exact renderMembers_not_mem '\x7d' ((k, l) :: rest) hwf
          (fun p hp => ((hwf p hp).1).2.2.2)
          (fun p hp s hs => by
            have := (hwf p hp).2
            rw [hs] at this
            exact this.2.2.2)
          (by decide) (by decide) (by decide) (by decide) (by decide) (by decide) (by decide)
          (by decide) (by decide) hmem
    have h3 : '\x5c' ∉ '\n' :: (renderMembers ((k, l) :: rest) ++ ['\n']) := by
      intro hmem
      simp at hmem
      exact renderMembers_not_mem '\x5c' ((k, l) :: rest) hwf
          (fun p hp => ((hwf p hp).1).2.1)
          (fun p hp s hs => by
            have := (hwf p hp).2
            rw [hs] at this
            exact this.2.1)
          (by decide) (by decide) (by decide) (by decide) (by decide) (by decide) (by decide)
          (by decide) (by decide) hmem
    have hq : strState ('\n' :: (renderMembers ((k, l) :: rest) ++ ['\n'])) false = false := by
      show strState (renderMembers ((k, l) :: rest) ++ ['\n']) false = false
      rw [strState_append, strState_renderMembers ((k, l) :: rest) hwf]
      rfl
    have hscan := scanJSON_span_close ('\n' :: (renderMembers ((k, l) :: rest) ++ ['\n']))
      h1 h2 h3 hq body
    have hshape : renderObj ((k, l) :: rest) ++ body =
        '\x7b' :: (('\n' :: (renderMembers ((k, l) :: rest) ++ ['\n'])) ++ '\x7d' :: body) := by
      simp [renderObj]
    have hspan : '\x7b' :: (('\n' :: (renderMembers ((k, l) :: rest) ++ ['\n'])) ++ ['\x7d']) =
        renderObj ((k, l) :: rest) := by
      simp [renderObj]
    rw [hshape]
    unfold jsonParse
    rw [trimLeft_cons_of_not_ws _ _ (by decide)]
    have hleaf : jsonLeaf ('\x7b' ::
        (('\n' :: (renderMembers ((k, l) :: rest) ++ ['\n'])) ++ ['\x7d'])) =
        some (litPairs ((k, l) :: rest)) := by
      rw [hspan]
      exact jsonLeaf_render ((k, l) :: rest) hwf
    simp only [List.cons_append, List.append_assoc, List.singleton_append, List.nil_append] at hscan hleaf
    simp [hscan, hleaf]

theorem trimSpace_dropOneNewline (b : Doc) : trimSpace (dropOneNewline b) = trimSpace b := by
  cases b with
  | nil => rfl
  | cons c r =>
    unfold dropOneNewline
    split
    · next r2 heq =>
      obtain ⟨hc, hr⟩ := List.cons.inj heq
      subst hc
      subst hr
      unfold trimSpace
      rw [trimLeft_cons_of_ws _ _ (by decide)]
    · rfl

theorem GetParser_fenced_toml (block : List Doc) (body : Doc) (pairs : List (Doc × Value))
    (hb : ∀ l ∈ block, '\n' ∉ l) (hnb : tomlFence ∉ block) (hleaf : tomlLeaf block = some pairs) :
    GetParser (catLines (tomlFence :: block ++ [tomlFence]) body) =
      ⟨"TOML", true, buildMetadata pairs, body⟩ := by
  have hall : ∀ l ∈ tomlFence :: (block ++ [tomlFence]), '\n' ∉ l := by
    intro l hl
    rcases (by simpa using hl : l = tomlFence ∨ l ∈ block ∨ l = tomlFence) with h | h | h
    · exact h ▸ (by decide)
    · exact hb l h
    · exact h ▸ (by decide)
  have hsplit := splitLines_catLines (tomlFence :: (block ++ [tomlFence])) hall body
  rw [splitLines] at hsplit
  have hfirst : (splitLinesAux (catLines (tomlFence :: block ++ [tomlFence]) body)).1 =
      tomlFence := (List.cons.inj hsplit).1
  have hsn := sniff_of_first_toml _ hfirst
  have hp := fenceParse_ok tomlFence tomlLeaf block body pairs (by decide) hb hnb hleaf
  unfold GetParser
  rw [hsn]
  exact mkResult_ok .toml _ (buildMetadata pairs) body hp

theorem GetParser_fenced_yaml (block : List Doc) (body : Doc) (pairs : List (Doc × Value))
    (hb : ∀ l ∈ block, '\n' ∉ l) (hnb : yamlFence ∉ block) (hleaf : yamlLeaf block = some pairs) :
    GetParser (catLines (yamlFence :: block ++ [yamlFence]) body) =
      ⟨"YAML", true, buildMetadata pairs, body⟩ := by
  have hall : ∀ l ∈ yamlFence :: (block ++ [yamlFence]), '\n' ∉ l := by
    intro l hl
    rcases (by simpa using hl : l = yamlFence ∨ l ∈ block ∨ l = yamlFence) with h | h | h
    · exact h ▸ (by decide)
    · exact hb l h
    · exact h ▸ (by decide)
  have hsplit := splitLines_catLines (yamlFence :: (block ++ [yamlFence])) hall body
  rw [splitLines] at hsplit
  have hfirst : (splitLinesAux (catLines (yamlFence :: block ++ [yamlFence]) body)).1 =
      yamlFence := (List.cons.inj hsplit).1
  have hsn := sniff_of_first_yaml _ hfirst
  have hp := fenceParse_ok yamlFence yamlLeaf block body pairs (by decide) hb hnb hleaf
  unfold GetParser
  rw [hsn]
  exact mkResult_ok .yaml _ (buildMetadata pairs) body hp

theorem renderObj_head (ps : List (Doc × JLit)) : ∃ y, renderObj ps = '\x7b' :: y := by
  cases ps with
  | nil => exact ⟨['\x7d'], rfl⟩
  | cons p rest =>
    exact ⟨'\n' :: (renderMembers (p :: rest) ++ ['\n', '\x7d']), rfl⟩

theorem GetParser_rendered_json (ps : List (Doc × JLit)) (body : Doc) (hwf : pairsWF ps) :
    GetParser (renderObj ps ++ body) =
      ⟨"JSON", true, buildMetadata (litPairs ps), dropOneNewline body⟩ := by
  obtain ⟨y, hy⟩ := renderObj_head ps
  have hsn : sniff (renderObj ps ++ body) = .json := by
    rw [hy, List.cons_append]
    exact sniff_brace (y ++ body)
  have hp := jsonParse_render ps hwf body
  unfold GetParser
  rw [hsn]
  exact mkResult_ok .json _ (buildMetadata (litPairs ps)) (dropOneNewline body) hp

/-- C1: for every format and every well-formed document made of a valid
fenced or braced metadata block followed by body text, the selected parser
initializes successfully, its type is the format's name, its body equals
the trailing body text (so the trimmed bodies agree), and the variables
mapping holds exactly the keys declared in the block with their parsed
typed values (string, boolean, integer, float). -/
theorem c1_wellformed :
    (∀ block body pairs, (∀ l ∈ block, '\n' ∉ l) → tomlFence ∉ block →
      tomlLeaf block = some pairs →
      GetParser (catLines (tomlFence :: block ++ [tomlFence]) body) =
        ⟨"TOML", true, buildMetadata pairs, body⟩ ∧
      (buildMetadata pairs).vars = pairs) ∧
    (∀ block body pairs, (∀ l ∈ block, '\n' ∉ l) → yamlFence ∉ block →
      yamlLeaf block = some pairs →
      GetParser (catLines (yamlFence :: block ++ [yamlFence]) body) =
        ⟨"YAML", true, buildMetadata pairs, body⟩ ∧
      (buildMetadata pairs).vars = pairs) ∧
    (∀ ps body, pairsWF ps →
      GetParser (renderObj ps ++ body) =
        ⟨"JSON", true, buildMetadata (litPairs ps), dropOneNewline body⟩ ∧
      trimSpace (dropOneNewline body) = trimSpace body ∧
      (buildMetadata (litPairs ps)).vars = litPairs ps) := by
  refine ⟨?_, ?_, ?_⟩
  · intro block body pairs hb hnb hleaf
    exact ⟨GetParser_fenced_toml block body pairs hb hnb hleaf, rfl⟩
  · intro block body pairs hb hnb hleaf
    exact ⟨GetParser_fenced_yaml block body pairs hb hnb hleaf, rfl⟩
  · intro ps body hwf
    exact ⟨GetParser_rendered_json ps body hwf, trimSpace_dropOneNewline body, rfl⟩

theorem c1_witness :
    GetParser (catLines (tomlFence :: ["title = \x22A title\x22".toList] ++ [tomlFence])
        "Page content\n".toList) =
      ⟨"TOML", true, buildMetadata [("title".toList, Value.str "A title".toList)],
        "Page content\n".toList⟩ ∧
    GetParser (catLines (yamlFence :: ["title : A title".toList] ++ [yamlFence])
        "Page content\n".toList) =
      ⟨"YAML", true, buildMetadata [("title".toList, Value.str "A title".toList)],
        "Page content\n".toList⟩ ∧
    GetParser (renderObj [("template".toList, JLit.str "chapter".toList)] ++ "\nBody\n".toList) =
      ⟨"JSON", true, buildMetadata (litPairs [("template".toList, JLit.str "chapter".toList)]),
        "Body\n".toList⟩ :=
  ⟨(c1_wellformed.1 ["title = \x22A title\x22".toList] "Page content\n".toList
      [("title".toList, Value.str "A title".toList)] (by decide) (by decide) (by decide)).1,
   (c1_wellformed.2.1 ["title : A title".toList] "Page content\n".toList
      [("title".toList, Value.str "A title".toList)] (by decide) (by decide) (by decide)).1,
   (c1_wellformed.2.2 [("template".toList, JLit.str "chapter".toList)] "\nBody\n".toList
      (by decide)).1⟩

/-- C7: for every one of the three formats, a document consisting of a
well-formed metadata block with its opening and closing delimiters but no
trailing body text is valid: Init succeeds and the body is empty. -/
theorem c7_empty_body :
    (∀ block pairs, (∀ l ∈ block, '\n' ∉ l) → tomlFence ∉ block →
      tomlLeaf block = some pairs →
      GetParser (catLines (tomlFence :: block ++ [tomlFence]) []) =
        ⟨"TOML", true, buildMetadata pairs, []⟩) ∧
    (∀ block pairs, (∀ l ∈ block, '\n' ∉ l) → yamlFence ∉ block →
      yamlLeaf block = some pairs →
      GetParser (catLines (yamlFence :: block ++ [yamlFence]) []) =
        ⟨"YAML", true, buildMetadata pairs, []⟩) ∧
    (∀ ps, pairsWF ps →
      GetParser (renderObj ps ++ ['\n']) = ⟨"JSON", true, buildMetadata (litPairs ps), []⟩) := by
  refine ⟨?_, ?_, ?_⟩
  · intro block pairs hb hnb hleaf
    exact GetParser_fenced_toml block [] pairs hb hnb hleaf
  · intro block pairs hb hnb hleaf
    exact GetParser_fenced_yaml block [] pairs hb hnb hleaf
  · intro ps hwf
    exact GetParser_rendered_json ps ['\n'] hwf

theorem c7_witness :
    GetParser (catLines (tomlFence :: ["name = \x22value\x22".toList] ++ [tomlFence]) []) =
      ⟨"TOML", true, buildMetadata [("name".toList, Value.str "value".toList)], []⟩ ∧
    GetParser (catLines (yamlFence :: ["name : value".toList] ++ [yamlFence]) []) =
      ⟨"YAML", true, buildMetadata [("name".toList, Value.str "value".toList)], []⟩ ∧
    GetParser (renderObj [("name".toList, JLit.bool true)] ++ ['\n']) =
      ⟨"JSON", true, buildMetadata (litPairs [("name".toList, JLit.bool true)]), []⟩ :=
  ⟨c7_empty_body.1 ["name = \x22value\x22".toList] [("name".toList, Value.str "value".toList)]
      (by decide) (by decide) (by decide),
   c7_empty_body.2.1 ["name : value".toList] [("name".toList, Value.str "value".toList)]
      (by decide) (by decide) (by decide),
   c7_empty_body.2.2 [("name".toList, JLit.bool true)] (by decide)⟩

theorem headD_ne_brace_of_head (d : Doc) (hh : d.head? ≠ some '\x7b') : d.headD ' ' ≠ '\x7b' := by
  cases d with
  | nil => decide
  | cons c r =>
    intro he
    exact hh (by rw [show c = '\x7b' from he]; rfl)

theorem ptype_eq_formatName (d : Doc) : (GetParser d).ptype = formatName (sniff d) := by
  unfold GetParser mkResult
  split <;> rfl

/-- C8 (amended): GetParser selects the JSON parser exactly when the very
first byte of the input is an opening brace; the fence markers are checked
first in fixed priority order, and any other input with no recognized
marker resolves to the None variant, whose initialization never fails. -/
theorem c8_json_detection (d : Doc) :
    ((GetParser d).ptype = "JSON" ↔ d.head? = some '\x7b') ∧
    (d.head? ≠ some '\x7b' → firstNonEmptyLine d ≠ tomlFence → firstNonEmptyLine d ≠ yamlFence →
      (GetParser d).ptype = "None" ∧ (GetParser d).initOK = true) := by
  constructor
  · constructor
    · intro hp
      rw [ptype_eq_formatName] at hp
      have hsn : sniff d = .json := by
        cases hs : sniff d <;> simp_all [formatName]
      by_contra hhead
      have hD := headD_ne_brace_of_head d hhead
      unfold sniff at hsn
      by_cases h1 : firstNonEmptyLine d = tomlFence
      · rw [if_pos h1] at hsn
        cases hsn
      · rw [if_neg h1] at hsn
        by_cases h2 : firstNonEmptyLine d = yamlFence
        · rw [if_pos h2] at hsn
          cases hsn
        · rw [if_neg h2, if_neg hD] at hsn
          cases hsn
    · intro hh
      obtain ⟨r, hr⟩ : ∃ r, d = '\x7b' :: r := by
        cases d with
        | nil => simp at hh
        | cons c r =>
          have : c = '\x7b' := by
            simp only [List.head?_cons, Option.some.injEq] at hh
            exact hh
          exact ⟨r, by rw [this]⟩
      rw [hr, ptype_eq_formatName, sniff_brace]
      rfl
  · intro hh h1 h2
    have hD := headD_ne_brace_of_head d hh
    have hsn := sniff_fnone d h1 h2 hD
    unfold GetParser
    rw [hsn]
    exact ⟨rfl, rfl⟩

/-- C8 counterexample: the claim as stated says JSON is selected exactly
when the first significant character is an opening brace, but an input
whose brace follows a single space is accepted by the JSON parser's own
Init (the brace is its first significant character) while GetParser
resolves it to the None variant. -/
theorem c8_counter :
    trimLeft " \x7b\x7d".toList = "\x7b\x7d".toList ∧
    initB .json " \x7b\x7d".toList = true ∧
    (GetParser " \x7b\x7d".toList).ptype = "None" := by
  decide

theorem c8_witness :
    (GetParser "\x7b\x7d".toList).ptype = "JSON" ∧
    (GetParser "Some prose.".toList).ptype = "None" ∧
    (GetParser "Some prose.".toList).initOK = true :=
  ⟨(c8_json_detection "\x7b\x7d".toList).1.mpr (by decide),
   ((c8_json_detection "Some prose.".toList).2 (by decide) (by decide) (by decide)).1,
   ((c8_json_detection "Some prose.".toList).2 (by decide) (by decide) (by decide)).2⟩
